import Mathlib

/-!
# A verification model of repolinter's `lib/file_system.js`

This file gives a shallow embedding in Lean 4 of the `FileSystem` class of
`lib/file_system.js` and settles the specification claims about it.

Modelling conventions:

* JavaScript strings are modelled as `List Char` (`JsStr`).  All string
  operations used by the source (`startsWith`, `indexOf('\n')`, `substring`,
  concatenation, `split`/`join`) are modelled by executable char-list
  functions, so that concrete instances can be checked by `decide`.
* `path.resolve`, `path.relative` and `path.sep` (Node's `path` module) are
  modelled for the POSIX host (`path.sep = '/'`): paths are split into
  `/`-separated components, `.`/`..`/empty components are normalised away
  exactly as Node's resolver does for absolute paths.
* `process.platform === 'win32'` is kept as an explicit boolean argument
  `win32` of `normalizePath` and of everything built on it, mirroring the
  platform branch in the source.
* Asynchronous I/O is modelled by passing the outcome of each underlying
  operation (the eventual result of the awaited promise) as an explicit
  argument: `Except JsError α` for an `await`ed call, `JsPromise α` for a
  promise that is returned without being awaited (whose rejection an
  enclosing `try`/`catch` can *not* intercept).
-/

/-- JavaScript strings, modelled as lists of characters. -/
abbrev JsStr := List Char

/-- A JavaScript `Error` as far as the source inspects it: the only thing the
code ever looks at is whether `e.message.includes('ENOENT')`. -/
structure JsError where
  enoentMsg : Bool
deriving DecidableEq, Repr

/-- The eventual outcome of a JavaScript promise: it either resolves with a
value or rejects with an error. -/
inductive JsPromise (α : Type) where
  | resolved (value : α)
  | rejected (e : JsError)
deriving DecidableEq, Repr

/-! ## The Node `path` module, POSIX host

`path.resolve` joins its argument onto the base directory (unless the
argument is already absolute) and normalises `.`/`..`/empty components;
`path.relative` normalises both paths, strips the common component prefix and
prepends one `..` per remaining component of the source path. -/

/-- Split a character list at every occurrence of `sep` (the model of
JavaScript's `String.prototype.split`, used with `path.sep`, and the component
decomposition used by Node's path functions).  `splitCh sep s` is never `[]`;
splitting the empty string yields `[[]]`, as in JavaScript. -/
def splitCh (sep : Char) : List Char → List (List Char)
  | [] => [[]]
  | c :: rest =>
    if c = sep then [] :: splitCh sep rest
    else
      match splitCh sep rest with
      | [] => [[c]]
      | g :: gs => (c :: g) :: gs

/-- Join a list of components with `sep` between them (the model of
JavaScript's `Array.prototype.join`). -/
def joinCh (sep : Char) : List (List Char) → List Char
  | [] => []
  | [g] => g
  | g :: gs => g ++ sep :: joinCh sep gs

/-- One step of Node's normalisation of an absolute path's component list:
empty components and `.` are dropped, `..` pops the previous component
(or is dropped at the root). -/
def normStep (acc : List (List Char)) (c : List Char) : List (List Char) :=
  if c = [] ∨ c = ['.'] then acc
  else if c = ['.', '.'] then acc.dropLast
  else acc ++ [c]

/-- Node's normalisation of the component list of an *absolute* path. -/
def normAbs (comps : List (List Char)) : List (List Char) :=
  comps.foldl normStep []

/-- Node's `path.isAbsolute` on POSIX: the first character is `/`. -/
def isAbsolute : JsStr → Bool
  | [] => false
  | c :: _ => c == '/'

/-- Model of `path.resolve(base, p)` on POSIX, for an absolute `base`:
if `p` is absolute it is normalised on its own, otherwise the component
lists of `base` and `p` are concatenated and normalised; the result carries
a leading `/`. -/
def pathResolve (base p : JsStr) : JsStr :=
  if isAbsolute p then '/' :: joinCh '/' (normAbs (splitCh '/' p))
  else '/' :: joinCh '/' (normAbs (splitCh '/' base ++ splitCh '/' p))

/-- The common-prefix stripping step of `path.relative`: drop the longest
common prefix of the two component lists and return both remainders. -/
def dropCommon : List (List Char) → List (List Char) → List (List Char) × List (List Char)
  | a :: as, b :: bs => if a = b then dropCommon as bs else (a :: as, b :: bs)
  | as, bs => (as, bs)

/-- Model of `path.relative(f, t)` on POSIX for absolute `f`, `t`: normalise
both component lists, strip the common prefix, and prepend one `..` per
component remaining on the `f` side. -/
def pathRelative (f t : JsStr) : JsStr :=
  let fa := normAbs (splitCh '/' f)
  let ta := normAbs (splitCh '/' t)
  let (fr, tr) := dropCommon fa ta
  joinCh '/' (List.replicate fr.length ['.', '.'] ++ tr)

/-! ## Basic lemmas about the path model -/

theorem splitCh_ne_nil (sep : Char) (s : List Char) : splitCh sep s ≠ [] := by
  induction s with
  | nil => simp [splitCh]
  | cons c rest ih =>
    simp only [splitCh]
    split
    · simp
    · cases h : splitCh sep rest with
      | nil => simp
      | cons g gs => simp

theorem splitCh_sep_cons (sep : Char) (s : List Char) :
    splitCh sep (sep :: s) = [] :: splitCh sep s := by
  simp [splitCh]

/-- No component produced by `splitCh sep` contains the separator. -/
theorem splitCh_no_sep (sep : Char) (s : List Char) :
    ∀ g ∈ splitCh sep s, sep ∉ g := by
  induction s with
  | nil =>
    intro g hg
    simp only [splitCh, List.mem_singleton] at hg
    simp [hg]
  | cons c rest ih =>
    intro g hg
    simp only [splitCh] at hg
    by_cases hc : c = sep
    · rw [if_pos hc] at hg
      rw [List.mem_cons] at hg
      rcases hg with hg | hg
      · simp [hg]
      · exact ih g hg
    · rw [if_neg hc] at hg
      rcases hsplit : splitCh sep rest with _ | ⟨g0, gs⟩
      · exact absurd hsplit (splitCh_ne_nil sep rest)
      · rw [hsplit, List.mem_cons] at hg
        rcases hg with hg | hg
        · subst hg
          intro hmem
          rw [List.mem_cons] at hmem
          rcases hmem with h1 | h1
          · exact hc h1.symm
          · exact ih g0 (hsplit ▸ List.mem_cons_self g0 gs) h1
        · exact ih g (hsplit ▸ List.mem_cons_of_mem g0 hg)

/-- Splitting a separator-free string gives a single component. -/
theorem splitCh_of_no_sep (sep : Char) (g : List Char) (hg : sep ∉ g) :
    splitCh sep g = [g] := by
  induction g with
  | nil => rfl
  | cons c g0 ih =>
    have hc : c ≠ sep := fun h => hg (by simp [h])
    have hg0 : sep ∉ g0 := fun h => hg (List.mem_cons_of_mem c h)
    simp only [splitCh, if_neg hc, ih hg0]

/-- Splitting after prepending a separator-free block extends the first
component. -/
theorem splitCh_append_no_sep (sep : Char) (a s : List Char) (ha : sep ∉ a) :
    splitCh sep (a ++ s) =
      (a ++ (splitCh sep s).headI) :: (splitCh sep s).tail := by
  induction a with
  | nil =>
    simp only [List.nil_append]
    cases h : splitCh sep s with
    | nil => exact absurd h (splitCh_ne_nil sep s)
    | cons g gs => simp [h]
  | cons c a0 ih =>
    have hc : c ≠ sep := fun h => ha (by simp [h])
    have ha0 : sep ∉ a0 := fun h => ha (List.mem_cons_of_mem c h)
    simp only [List.cons_append, splitCh, if_neg hc, List.append_eq]
    rw [ih ha0]

/-- `joinCh` is a left inverse of `splitCh`. -/
theorem joinCh_splitCh (sep : Char) (s : List Char) :
    joinCh sep (splitCh sep s) = s := by
  induction s with
  | nil => simp [splitCh, joinCh]
  | cons c rest ih =>
    simp only [splitCh]
    by_cases hc : c = sep
    · rw [if_pos hc]
      rcases h : splitCh sep rest with _ | ⟨g, gs⟩
      · exact absurd h (splitCh_ne_nil sep rest)
      · rw [h] at ih
        simp only [joinCh]
        rw [ih, hc]
        rfl
    · rw [if_neg hc]
      rcases h : splitCh sep rest with _ | ⟨g, gs⟩
      · exact absurd h (splitCh_ne_nil sep rest)
      · rw [h] at ih
        cases gs with
        | nil => simp only [joinCh] at ih ⊢; rw [ih]
        | cons g1 gs1 => simp only [joinCh] at ih ⊢; rw [List.cons_append, ih]

/-- `splitCh` is a left inverse of `joinCh` on nonempty lists of
separator-free components. -/
theorem splitCh_joinCh (sep : Char) (comps : List (List Char))
    (hne : comps ≠ []) (hsep : ∀ g ∈ comps, sep ∉ g) :
    splitCh sep (joinCh sep comps) = comps := by
  induction comps with
  | nil => exact absurd rfl hne
  | cons g gs ih =>
    cases gs with
    | nil =>
      simp only [joinCh]
      exact splitCh_of_no_sep sep g (hsep g (List.mem_cons_self g []))
    | cons g1 gs1 =>
      have hg : sep ∉ g := hsep g (List.mem_cons_self g (g1 :: gs1))
      have hrest : ∀ x ∈ g1 :: gs1, sep ∉ x :=
        fun x hx => hsep x (List.mem_cons_of_mem g hx)
      simp only [joinCh]
      rw [splitCh_append_no_sep sep g (sep :: joinCh sep (g1 :: gs1)) hg,
        splitCh_sep_cons, ih (by simp) hrest]
      simp

/-! ## Clean paths and the resolve/relative round trip -/

/-- A well-formed path component: nonempty and not one of the special
components `.` and `..`. -/
def goodComp (g : List Char) : Prop :=
  g ≠ [] ∧ g ≠ ['.'] ∧ g ≠ ['.', '.']

instance : DecidablePred goodComp :=
  fun g => decidable_of_iff (g ≠ [] ∧ g ≠ ['.'] ∧ g ≠ ['.', '.']) Iff.rfl

/-- A clean relative path: every `/`-separated component is well formed.
This is the shape of the paths the `matched` glob library produces
(`cwd`-relative, already normalised, no `.`/`..`/empty segments). -/
def CleanRel (p : JsStr) : Prop :=
  ∀ g ∈ splitCh '/' p, goodComp g

instance : DecidablePred CleanRel :=
  fun p => List.decidableBAll goodComp (splitCh '/' p)

/-- A clean absolute directory: starts with `/` and every component after
the leading slash is well formed. -/
def CleanAbs (d : JsStr) : Prop :=
  isAbsolute d = true ∧ ∀ g ∈ (splitCh '/' d).tail, goodComp g

instance : DecidablePred CleanAbs :=
  fun _ => instDecidableAnd

theorem foldl_normStep_clean (comps : List (List Char))
    (h : ∀ g ∈ comps, goodComp g) :
    ∀ acc, List.foldl normStep acc comps = acc ++ comps := by
  induction comps with
  | nil => intro acc; simp
  | cons c cs ih =>
    intro acc
    have hc : goodComp c := h c (List.mem_cons_self c cs)
    have hcs : ∀ g ∈ cs, goodComp g := fun g hg => h g (List.mem_cons_of_mem c hg)
    have hstep : normStep acc c = acc ++ [c] := by
      unfold normStep
      rw [if_neg, if_neg hc.2.2]
      rintro (h1 | h1)
      · exact hc.1 h1
      · exact hc.2.1 h1
    simp only [List.foldl_cons, hstep, ih hcs]
    simp

theorem normAbs_clean (comps : List (List Char)) (h : ∀ g ∈ comps, goodComp g) :
    normAbs comps = comps := by
  simpa using foldl_normStep_clean comps h []

theorem normAbs_nil_cons (comps : List (List Char)) :
    normAbs ([] :: comps) = normAbs comps := by
  simp [normAbs, List.foldl_cons, normStep]

/-- Stripping the common prefix of `B` and `B ++ P` leaves `([], P)`. -/
theorem dropCommon_append (B P : List (List Char)) :
    dropCommon B (B ++ P) = ([], P) := by
  induction B with
  | nil =>
    cases P with
    | nil => rfl
    | cons q qs => rfl
  | cons b bs ih => simp [dropCommon, ih]

/-- A clean relative path does not start with `/`. -/
theorem cleanRel_not_absolute (p : JsStr) (hp : CleanRel p) :
    isAbsolute p = false := by
  cases p with
  | nil => rfl
  | cons c p0 =>
    by_cases h0 : c = '/'
    · subst h0
      have hmem : ([] : List Char) ∈ splitCh '/' ('/' :: p0) := by
        rw [splitCh_sep_cons]
        exact List.mem_cons_self _ _
      exact absurd rfl (hp [] hmem).1
    · simp [isAbsolute, h0]

/-- The round trip at the heart of `findAllFiles`' symlink filtering:
for a clean absolute base directory and a clean relative path,
`path.relative(base, path.resolve(base, p))` gives back `p`. -/
theorem pathRelative_pathResolve (d p : JsStr) (hd : CleanAbs d) (hp : CleanRel p) :
    pathRelative d (pathResolve d p) = p := by
  obtain ⟨habs, hdtail⟩ := hd
  rcases d with _ | ⟨c, r⟩
  · simp [isAbsolute] at habs
  · have hc : c = '/' := by
      have := habs
      simp only [isAbsolute, beq_iff_eq] at this
      exact this
    subst hc
    have hsplit : splitCh '/' ('/' :: r) = [] :: splitCh '/' r :=
      splitCh_sep_cons '/' r
    have hBgood : ∀ g ∈ splitCh '/' r, goodComp g := by
      intro g hg
      exact hdtail g (by rw [hsplit]; exact hg)
    have hPgood : ∀ g ∈ splitCh '/' p, goodComp g := hp
    have hBPgood : ∀ g ∈ splitCh '/' r ++ splitCh '/' p, goodComp g := by
      intro g hg
      rcases List.mem_append.mp hg with h1 | h1
      · exact hBgood g h1
      · exact hPgood g h1
    have hpabs : isAbsolute p = false := cleanRel_not_absolute p hp
    have hres : pathResolve ('/' :: r) p =
        '/' :: joinCh '/' (splitCh '/' r ++ splitCh '/' p) := by
      unfold pathResolve
      rw [hpabs]
      simp only [Bool.false_eq_true, if_false, hsplit, List.cons_append,
        normAbs_nil_cons, normAbs_clean _ hBPgood]
    rw [hres]
    unfold pathRelative
    have hnosep : ∀ g ∈ splitCh '/' r ++ splitCh '/' p, '/' ∉ g := by
      intro g hg
      rcases List.mem_append.mp hg with h1 | h1
      · exact splitCh_no_sep '/' r g h1
      · exact splitCh_no_sep '/' p g h1
    have hne : splitCh '/' r ++ splitCh '/' p ≠ [] := by
      intro h
      exact splitCh_ne_nil '/' p (List.append_eq_nil.mp h).2
    rw [splitCh_sep_cons '/' (joinCh '/' (splitCh '/' r ++ splitCh '/' p)),
      splitCh_joinCh '/' _ hne hnosep, hsplit]
    rw [normAbs_nil_cons, normAbs_nil_cons, normAbs_clean _ hBgood,
      normAbs_clean _ hBPgood]
    simp only [dropCommon_append, List.length_nil, List.replicate_zero,
      List.nil_append]
    exact joinCh_splitCh '/' p

/-! ## The `FileSystem` class: state and path normalisation -/

/-- The constructor state of the `FileSystem` class: `targetDir` and
`filterPaths`, both fixed at construction. -/
structure FileSystem where
  targetDir : JsStr
  filterPaths : List JsStr
deriving DecidableEq

/-- `normalizePath`: on win32 hosts replace the host separator `\` by `/`,
otherwise return the path unchanged.  `win32` models
`process.platform === 'win32'`. -/
def normalizePath (win32 : Bool) (filepath : JsStr) : JsStr :=
  if win32 then joinCh '/' (splitCh '\\' filepath) else filepath

/-- The spec's "canonical relative form" of a candidate path: resolved
against `targetDir`, re-expressed relative to `targetDir`, and normalised.
This is exactly the `resolvedPath` computed inside `shouldInclude`. -/
def canonicalRelative (fs : FileSystem) (win32 : Bool) (filePath : JsStr) : JsStr :=
  normalizePath win32 (pathRelative fs.targetDir (pathResolve fs.targetDir filePath))

/-- `shouldInclude`: true when `filterPaths` is empty, else true iff the
candidate's canonical relative form starts with some normalised filter
entry (JavaScript `String.prototype.startsWith`, i.e. character-prefix). -/
def shouldInclude (fs : FileSystem) (win32 : Bool) (filePath : JsStr) : Bool :=
  if fs.filterPaths.length = 0 then true
  else
    let resolvedPath :=
      normalizePath win32 (pathRelative fs.targetDir (pathResolve fs.targetDir filePath))
    (fs.filterPaths.map (normalizePath win32)).any
      (fun p => List.isPrefixOf p resolvedPath)

/-! ## Glob expansion and the discovery methods

The `matched` glob library is external to the repository; it is modelled as
an oracle (`GlobEngine`): a function from the (normalised) glob patterns and
options to the list of `cwd`-relative matches together with the `symlinks`
side channel it fills in (absolute path ↦ whether that path was seen to be a
symbolic link).  Quantifying over all engines quantifies over all glob
inputs and filesystem states. -/

/-- The options the source passes to the glob library, as far as the model
needs them. -/
structure GlobOptions where
  nocase : Bool
  nodir : Bool
deriving DecidableEq

/-- The observable output of one glob-library invocation: the matches and
the filled-in `symlinks` object (a finite map from absolute paths to
booleans, modelled as an association list). -/
structure GlobResult where
  found : List JsStr
  symlinks : List (JsStr × Bool)
deriving DecidableEq

/-- The glob library as an oracle. -/
def GlobEngine := List JsStr → GlobOptions → GlobResult

/-- The `glob` method: normalise the patterns, run the library, normalise
every match and keep those accepted by `shouldInclude`.  The `symlinks`
side channel is passed through to the caller (`findAllFiles`). -/
def globMethod (fs : FileSystem) (win32 : Bool) (engine : GlobEngine)
    (globs : List JsStr) (options : GlobOptions) : GlobResult :=
  let fixedGlobs := globs.map (normalizePath win32)
  let res := engine fixedGlobs options
  ⟨(res.found.map (normalizePath win32)).filter (fun p => shouldInclude fs win32 p),
    res.symlinks⟩

/-- `findAll`: files and directories both eligible; patterns are normalised
once here and again inside `glob`, as in the source; no symlink handling. -/
def findAll (fs : FileSystem) (win32 : Bool) (engine : GlobEngine)
    (globs : List JsStr) (nocase : Bool) : List JsStr :=
  let fixedGlobs := globs.map (normalizePath win32)
  (globMethod fs win32 engine fixedGlobs ⟨nocase, false⟩).found

/-- `findAllFiles`: glob with `nodir: true` and a `symlinks` side channel;
every reported-symlink absolute path is made repo-relative and normalised,
and all matches whose normalised form is among those are removed. -/
def findAllFiles (fs : FileSystem) (win32 : Bool) (engine : GlobEngine)
    (globs : List JsStr) (nocase : Bool) : List JsStr :=
  let res := globMethod fs win32 engine globs ⟨nocase, true⟩
  let onlySymlinks := (res.symlinks.filter (fun e => e.2)).map
    (fun e => normalizePath win32 (pathRelative fs.targetDir e.1))
  res.found.filter
    (fun filePath => !(onlySymlinks.contains (normalizePath win32 filePath)))

/-- `findFirst`: the first element of `findAll`'s sequence, or `undefined`
(modelled as `none`) when the sequence is empty. -/
def findFirst (fs : FileSystem) (win32 : Bool) (engine : GlobEngine)
    (globs : List JsStr) (nocase : Bool) : Option JsStr :=
  let allFiles := findAll fs win32 engine globs nocase
  if allFiles.length > 0 then allFiles.head? else none

/-- `findFirstFile`: the first element of `findAllFiles`' sequence, or
`undefined` when the sequence is empty. -/
def findFirstFile (fs : FileSystem) (win32 : Bool) (engine : GlobEngine)
    (globs : List JsStr) (nocase : Bool) : Option JsStr :=
  let allFiles := findAllFiles fs win32 engine globs nocase
  if allFiles.length > 0 then allFiles.head? else none

/-! ## Existence checks and content I/O

Each of these methods performs exactly one underlying I/O operation; the
outcome of that operation (the settled result of the awaited promise) is
passed to the model as an explicit argument. -/

/-- `fileExists(file)`: `fs.promises.access(file).then(() => true).catch(() => false)`.
`access` is modelled by the outcome of its promise. -/
def fileExists (access : Except JsError Unit) : Bool :=
  match access with
  | .ok _ => true
  | .error _ => false

/-- `relativeFileExists(file)`: resolve against `targetDir` and delegate to
`fileExists`.  `accessAt` gives the access-probe outcome at each absolute
path. -/
def relativeFileExists (fs : FileSystem) (accessAt : JsStr → Except JsError Unit)
    (file : JsStr) : Bool :=
  fileExists (accessAt (pathResolve fs.targetDir file))

/-- The filesystem contents visible to `readFile`/`writeFile`: a map from
absolute paths to file text (`none` = no file there). -/
def World := JsStr → Option JsStr

/-- The outcome of `fs.promises.readFile(p, 'utf8')` against a `World`:
the contents, or an `ENOENT` rejection. -/
def readFileAt (w : World) (p : JsStr) : Except JsError JsStr :=
  match w p with
  | some text => .ok text
  | none => .error ⟨true⟩

/-- `getFileContents(relativeFile)`: `try { return await readFile } catch { return undefined }`.
The `catch` is unconditional, so *any* rejection becomes `undefined`. -/
def getFileContents (fs : FileSystem) (readResult : JsStr → Except JsError JsStr)
    (relativeFile : JsStr) : Option JsStr :=
  match readResult (pathResolve fs.targetDir relativeFile) with
  | .ok text => some text
  | .error _ => none

/-- `setFileContents(relativeFile, contents)`: `fs.promises.writeFile` at the
resolved path; on success the world maps that absolute path to the new
contents. -/
def setFileContents (fs : FileSystem) (w : World) (relativeFile contents : JsStr) :
    World :=
  fun q => if q = pathResolve fs.targetDir relativeFile then some contents else w q

/-- `isBinaryFile(relativeFile)`.  The probe `isBinaryFile.isBinaryFile(file)`
is an `async` call: it can in principle throw synchronously (outer `.error`,
which the `try`/`catch` *does* intercept) or return a promise (outer `.ok`,
whose later rejection the `catch` can *not* intercept, because the method
returns the promise without `await`ing it).  The error branch mirrors the
source: an `ENOENT` message yields `false`, anything else is rethrown. -/
def isBinaryFile (probeCall : Except JsError (JsPromise Bool)) : JsPromise Bool :=
  match probeCall with
  | .ok promise => promise
  | .error e => if e.enoentMsg then .resolved false else .rejected e

/-! ## The bounded line reader `getFileLines`

The reader opens the file, then repeatedly reads fixed-size chunks, scanning
the rolling `leftOver` text for `'\n'`; every complete line (newline
included) is appended to `lines`; once `lineCount` lines are found it closes
the handle and returns early; reading `0` bytes (end of file) breaks the
loop, closes and returns.  The model replays the reader against an explicit
trace: the outcome of `open`, then the sequence of outcomes of the
successive `fd.read` calls (a chunk of text, or a rejection).  The second
component of the result records whether an acquired file handle was left
open (`true` = leaked). -/

/-- Outcome of `fs.promises.open(file, 'r')`: a handle, or a rejection whose
message may or may not contain `ENOENT`. -/
inductive OpenResult where
  | ok
  | err (e : JsError)
deriving DecidableEq, Repr

/-- Outcome of one `fd.read(...)` call: `chunk []` models `bytesRead === 0`
(end of file), `chunk c` with `c ≠ []` models reading the text `c`, and
`err` models a rejection of the read. -/
inductive ReadEvent where
  | chunk (data : JsStr)
  | err (e : JsError)
deriving DecidableEq, Repr

/-- What `getFileLines` does: return `undefined`, return a string, or let an
error propagate. -/
inductive LinesOutcome where
  | absent
  | ret (lines : JsStr)
  | threw (e : JsError)
deriving DecidableEq, Repr

/-- Result of the inner `while ((idx = leftOver.indexOf('\n', idxStart)) !== -1)`
loop: either the scan exhausted the text (`more`: the residue after the last
newline, the accumulated lines, the line counter) or the requested count was
reached (`done`: the accumulated lines, returned early). -/
inductive ScanOut where
  | more (leftOver lines : JsStr) (lineNumber : Nat)
  | done (lines : JsStr)
deriving DecidableEq, Repr

/-- The inner newline scan of `getFileLines`, character by character.
`pending` is the portion of the current (not yet newline-terminated) line
scanned so far — in the source it is the segment `leftOver.substring(idxStart)`
up to the scan position. -/
def scanChars (text pending lines : JsStr) (lineNumber lineCount : Nat) : ScanOut :=
  match text with
  | [] => .more pending lines lineNumber
  | c :: rest =>
    if c = '\n' then
      let lines2 := lines ++ pending ++ ['\n']
      if lineNumber + 1 ≥ lineCount then .done lines2
      else scanChars rest [] lines2 (lineNumber + 1) lineCount
    else scanChars rest (pending ++ [c]) lines lineNumber lineCount

/-- The outer `while (true)` read loop of `getFileLines`.  An exhausted
trace behaves like `bytesRead === 0`: break, close, return `lines`.  A read
rejection propagates out of the loop with the handle still open — there is
no `try`/`finally` around the loop in the source. -/
def readLoop (reads : List ReadEvent) (leftOver lines : JsStr)
    (lineNumber lineCount : Nat) : LinesOutcome × Bool :=
  match reads with
  | [] => (.ret lines, false)
  | .err e :: _ => (.threw e, true)
  | .chunk c :: rest =>
    if c = [] then (.ret lines, false)
    else
      match scanChars (leftOver ++ c) [] lines lineNumber lineCount with
      | .done lines2 => (.ret lines2, false)
      | .more pending lines2 ln2 => readLoop rest pending lines2 ln2 lineCount

/-- `getFileLines(relativeFile, lineCount)` replayed against a trace.
If `open` rejects with an `ENOENT` message the method returns `undefined`
(no handle was acquired: `if (fd) fd.close()` does nothing); any other open
rejection is rethrown; otherwise the read loop runs. -/
def getFileLines (openRes : OpenResult) (reads : List ReadEvent)
    (lineCount : Nat) : LinesOutcome × Bool :=
  match openRes with
  | .err e => if e.enoentMsg then (.absent, false) else (.threw e, false)
  | .ok => readLoop reads [] [] 0 lineCount

/-! ### The specification-side description of the reader -/

/-- Split off the first newline-terminated line of `text` (newline included),
if any. -/
def firstLineSplit : JsStr → Option (JsStr × JsStr)
  | [] => none
  | c :: rest =>
    if c = '\n' then some (['\n'], rest)
    else
      match firstLineSplit rest with
      | none => none
      | some (l, r) => some (c :: l, r)

/-- The concatenation of the first `n` newline-terminated lines of `text`
(each keeping its newline); all complete lines if there are fewer than `n`. -/
def linesUpTo : Nat → JsStr → JsStr
  | 0, _ => []
  | n + 1, text =>
    match firstLineSplit text with
    | none => []
    | some (l, rest) => l ++ linesUpTo n rest

/-- The number of newline-terminated lines of `text`. -/
def countNL (text : JsStr) : Nat := text.count '\n'

/-- The longest prefix of `text` ending in a newline — everything up to and
including the last `'\n'` (empty if there is none). -/
def terminatedPart : JsStr → JsStr
  | [] => []
  | c :: rest =>
    let t := terminatedPart rest
    if t = [] then (if c = '\n' then ['\n'] else []) else c :: t

/-- The value eventually returned by the read loop, whichever way the inner
scan ends (early stop or text exhausted). -/
def scanResult (text pending lines : JsStr) (lineNumber lineCount : Nat) : JsStr :=
  match scanChars text pending lines lineNumber lineCount with
  | .more _ l _ => l
  | .done l => l

/-! ### Lemmas about `firstLineSplit`, `linesUpTo` and `terminatedPart` -/

theorem firstLineSplit_of_no_newline (text : JsStr) (h : '\n' ∉ text) :
    firstLineSplit text = none := by
  induction text with
  | nil => rfl
  | cons c rest ih =>
    have hc : c ≠ '\n' := fun hx => h (by simp [hx])
    have hrest : '\n' ∉ rest := fun hx => h (List.mem_cons_of_mem c hx)
    simp [firstLineSplit, if_neg hc, ih hrest]

theorem firstLineSplit_append (pre rest : JsStr) (h : '\n' ∉ pre) :
    firstLineSplit (pre ++ '\n' :: rest) = some (pre ++ ['\n'], rest) := by
  induction pre with
  | nil => simp [firstLineSplit]
  | cons c p0 ih =>
    have hc : c ≠ '\n' := fun hx => h (by simp [hx])
    have hp0 : '\n' ∉ p0 := fun hx => h (List.mem_cons_of_mem c hx)
    simp [firstLineSplit, if_neg hc, ih hp0]

/-- `firstLineSplit` fails only on newline-free text. -/
theorem no_newline_of_firstLineSplit_none (text : JsStr)
    (h : firstLineSplit text = none) : '\n' ∉ text := by
  induction text with
  | nil => simp
  | cons c rest ih =>
    by_cases hc : c = '\n'
    · subst hc; simp [firstLineSplit] at h
    · simp only [firstLineSplit, if_neg hc] at h
      cases hsplit : firstLineSplit rest with
      | none =>
        intro hx
        rcases List.mem_cons.mp hx with h1 | h1
        · exact hc h1.symm
        · exact ih hsplit h1
      | some lr =>
        obtain ⟨l0, r0⟩ := lr
        rw [hsplit] at h
        simp at h

/-- Structure of a successful `firstLineSplit`. -/
theorem firstLineSplit_decomp (text l rest : JsStr)
    (h : firstLineSplit text = some (l, rest)) :
    ∃ pre, l = pre ++ ['\n'] ∧ '\n' ∉ pre ∧ text = pre ++ '\n' :: rest := by
  induction text generalizing l rest with
  | nil => simp [firstLineSplit] at h
  | cons c t0 ih =>
    by_cases hc : c = '\n'
    · subst hc
      simp only [firstLineSplit, if_true, eq_self_iff_true, if_pos,
        Option.some.injEq, Prod.mk.injEq] at h
      exact ⟨[], by simp [h.1.symm], by simp, by simp [h.2]⟩
    · simp only [firstLineSplit, if_neg hc] at h
      cases hsplit : firstLineSplit t0 with
      | none => rw [hsplit] at h; simp at h
      | some lr =>
        obtain ⟨l0, r0⟩ := lr
        rw [hsplit] at h
        simp only [Option.some.injEq, Prod.mk.injEq] at h
        obtain ⟨pre, hpre1, hpre2, hpre3⟩ := ih l0 r0 hsplit
        refine ⟨c :: pre, ?_, ?_, ?_⟩
        · rw [← h.1, hpre1]; rfl
        · intro hx
          rcases List.mem_cons.mp hx with h1 | h1
          · exact hc h1.symm
          · exact hpre2 h1
        · rw [hpre3, ← h.2]; rfl

theorem countNL_of_firstLineSplit (text l rest : JsStr)
    (h : firstLineSplit text = some (l, rest)) :
    countNL text = countNL rest + 1 := by
  obtain ⟨pre, -, hpre2, hpre3⟩ := firstLineSplit_decomp text l rest h
  subst hpre3
  simp only [countNL, List.count_append, List.count_cons]
  have : List.count '\n' pre = 0 := List.count_eq_zero.mpr hpre2
  simp [this]

theorem linesUpTo_of_no_newline (n : Nat) (text : JsStr) (h : '\n' ∉ text) :
    linesUpTo n text = [] := by
  cases n with
  | zero => rfl
  | succ n0 => simp [linesUpTo, firstLineSplit_of_no_newline text h]

theorem terminatedPart_of_no_newline (text : JsStr) (h : '\n' ∉ text) :
    terminatedPart text = [] := by
  induction text with
  | nil => rfl
  | cons c rest ih =>
    have hc : c ≠ '\n' := fun hx => h (by simp [hx])
    have hrest : '\n' ∉ rest := fun hx => h (List.mem_cons_of_mem c hx)
    simp [terminatedPart, ih hrest, if_neg hc]

theorem terminatedPart_append (pre rest : JsStr) (h : '\n' ∉ pre) :
    terminatedPart (pre ++ '\n' :: rest) = pre ++ '\n' :: terminatedPart rest := by
  induction pre with
  | nil =>
    simp only [List.nil_append, terminatedPart]
    by_cases ht : terminatedPart rest = []
    · simp [ht]
    · simp [ht]
  | cons c p0 ih =>
    have hp0 : '\n' ∉ p0 := fun hx => h (List.mem_cons_of_mem c hx)
    show terminatedPart (c :: (p0 ++ '\n' :: rest)) = c :: (p0 ++ '\n' :: terminatedPart rest)
    simp only [terminatedPart]
    rw [ih hp0]
    have hne : p0 ++ '\n' :: terminatedPart rest ≠ [] := by simp
    rw [if_neg hne]

theorem countNL_terminatedPart (text : JsStr) :
    countNL (terminatedPart text) = countNL text := by
  induction text with
  | nil => rfl
  | cons c rest ih =>
    simp only [terminatedPart]
    by_cases ht : terminatedPart rest = []
    · rw [ht] at ih
      have hrest : List.count '\n' rest = 0 := by simpa [countNL] using ih.symm
      rw [if_pos ht]
      by_cases hc : c = '\n'
      · subst hc
        simp [countNL, List.count_cons, hrest]
      · rw [if_neg hc]
        simp [countNL, List.count_cons, hrest, hc]
    · rw [if_neg ht]
      simp only [countNL, List.count_cons] at ih ⊢
      rw [ih]

/-- `linesUpTo n` gives the whole terminated part once `n` is at least the
number of lines. -/
theorem linesUpTo_eq_terminatedPart (n : Nat) (text : JsStr)
    (h : countNL text ≤ n) : linesUpTo n text = terminatedPart text := by
  induction n generalizing text with
  | zero =>
    have : '\n' ∉ text := by
      rw [Nat.le_zero] at h
      exact List.count_eq_zero.mp h
    rw [linesUpTo_of_no_newline 0 text this, terminatedPart_of_no_newline text this]
  | succ n0 ih =>
    cases hsplit : firstLineSplit text with
    | none =>
      have hno : '\n' ∉ text := no_newline_of_firstLineSplit_none text hsplit
      rw [linesUpTo_of_no_newline _ text hno, terminatedPart_of_no_newline text hno]
    | some lr =>
      obtain ⟨l, rest⟩ := lr
      obtain ⟨pre, hl, hpre, htext⟩ := firstLineSplit_decomp text l rest hsplit
      have hcount : countNL text = countNL rest + 1 :=
        countNL_of_firstLineSplit text l rest hsplit
      have hrest : countNL rest ≤ n0 := by omega
      simp only [linesUpTo, hsplit, ih rest hrest]
      rw [htext, terminatedPart_append pre rest hpre, hl]
      simp

/-- `linesUpTo` is monotone in `n` in the prefix order. -/
theorem linesUpTo_mono (n : Nat) :
    ∀ m, ∀ text : JsStr, n ≤ m →
      ∃ t, linesUpTo n text ++ t = linesUpTo m text := by
  induction n with
  | zero => intro m text _; exact ⟨linesUpTo m text, rfl⟩
  | succ n0 ih =>
    intro m text hnm
    cases m with
    | zero => omega
    | succ m0 =>
      cases hsplit : firstLineSplit text with
      | none => exact ⟨[], by simp [linesUpTo, hsplit]⟩
      | some lr =>
        obtain ⟨l, rest⟩ := lr
        obtain ⟨t, ht⟩ := ih m0 rest (by omega)
        exact ⟨t, by simp [linesUpTo, hsplit, ← ht]⟩

/-- Every value of `linesUpTo` is empty or ends in a newline. -/
theorem linesUpTo_getLast (n : Nat) :
    ∀ text : JsStr, linesUpTo n text = [] ∨
      (linesUpTo n text).getLast? = some '\n' := by
  induction n with
  | zero => intro text; exact Or.inl rfl
  | succ n0 ih =>
    intro text
    cases hsplit : firstLineSplit text with
    | none => exact Or.inl (by simp [linesUpTo, hsplit])
    | some lr =>
      obtain ⟨l, rest⟩ := lr
      obtain ⟨pre, hl, -, -⟩ := firstLineSplit_decomp text l rest hsplit
      right
      simp only [linesUpTo, hsplit]
      rcases ih rest with h0 | h0
      · rw [h0, List.append_nil, hl]
        exact List.getLast?_concat pre
      · rw [List.getLast?_append, h0]
        rfl

/-! ### From the chunked read loop to `linesUpTo` -/

theorem scanChars_append (a : JsStr) :
    ∀ b pend lines : JsStr, ∀ ln N : Nat,
      scanChars (a ++ b) pend lines ln N =
        match scanChars a pend lines ln N with
        | .done l => .done l
        | .more p l n => scanChars b p l n N := by
  induction a with
  | nil => intro b pend lines ln N; simp [scanChars]
  | cons c rest ih =>
    intro b pend lines ln N
    by_cases hc : c = '\n'
    · by_cases hN : ln + 1 ≥ N
      · simp [scanChars, hc, hN]
      · simp [scanChars, hc, hN, ih]
    · simp [scanChars, hc, ih]

/-- Scanning text prepended with a newline-free block is scanning the text
with that block moved into `pending`. -/
theorem scanChars_shift (a : JsStr) :
    ∀ s pend lines : JsStr, ∀ ln N : Nat, '\n' ∉ a →
      scanChars (a ++ s) pend lines ln N = scanChars s (pend ++ a) lines ln N := by
  induction a with
  | nil => intro s pend lines ln N _; simp
  | cons c rest ih =>
    intro s pend lines ln N ha
    have hc : c ≠ '\n' := fun hx => ha (by simp [hx])
    have hrest : '\n' ∉ rest := fun hx => ha (List.mem_cons_of_mem c hx)
    simp only [List.cons_append, scanChars, if_neg hc, List.append_eq]
    rw [ih s (pend ++ [c]) lines ln N hrest, List.append_assoc]
    rfl

/-- The residue handed back by the inner scan never contains a newline. -/
theorem scanChars_more_pending (text : JsStr) :
    ∀ pend lines p2 l2 : JsStr, ∀ ln ln2 N : Nat, '\n' ∉ pend →
      scanChars text pend lines ln N = .more p2 l2 ln2 → '\n' ∉ p2 := by
  induction text with
  | nil =>
    intro pend lines p2 l2 ln ln2 N hp h
    simp only [scanChars, ScanOut.more.injEq] at h
    rw [← h.1]
    exact hp
  | cons c rest ih =>
    intro pend lines p2 l2 ln ln2 N hp h
    by_cases hc : c = '\n'
    · subst hc
      by_cases hN : ln + 1 ≥ N
      · simp [scanChars, hN] at h
      · simp only [scanChars, if_pos rfl, if_true, eq_self_iff_true] at h
        rw [if_neg hN] at h
        exact ih [] _ p2 l2 (ln + 1) ln2 N (by simp) h
    · simp only [scanChars, if_neg hc] at h
      have hpc : '\n' ∉ pend ++ [c] := by
        intro hx
        rcases List.mem_append.mp hx with h1 | h1
        · exact hp h1
        · rw [List.mem_singleton] at h1
          exact hc h1.symm
      exact ih (pend ++ [c]) _ p2 l2 ln ln2 N hpc h

/-- Chunk invariance: replaying the read loop over any decomposition of the
file text into nonempty chunks gives the same result as one inner scan over
the whole text, and the handle is closed. -/
theorem readLoop_chunks (cs : List JsStr) :
    ∀ leftOver lines : JsStr, ∀ ln N : Nat,
      (∀ c ∈ cs, c ≠ []) → '\n' ∉ leftOver →
      readLoop (cs.map .chunk) leftOver lines ln N =
        (.ret (scanResult cs.flatten leftOver lines ln N), false) := by
  induction cs with
  | nil =>
    intro leftOver lines ln N _ _
    simp [readLoop, scanResult, scanChars]
  | cons c rest ih =>
    intro leftOver lines ln N hcs hlo
    have hc : ¬c = [] := hcs c (List.mem_cons_self c rest)
    have hshift : scanChars (leftOver ++ c) [] lines ln N =
        scanChars c leftOver lines ln N := by
      rw [scanChars_shift leftOver c [] lines ln N hlo]
      simp
    simp only [List.map_cons, readLoop, if_neg hc, hshift]
    cases hsc : scanChars c leftOver lines ln N with
    | done l =>
      simp only [scanResult, List.flatten_cons, scanChars_append, hsc]
    | more p2 l2 ln2 =>
      have hp2 : '\n' ∉ p2 :=
        scanChars_more_pending c leftOver lines p2 l2 ln ln2 N hlo hsc
      show readLoop (rest.map .chunk) p2 l2 ln2 N =
        (.ret (scanResult (c :: rest).flatten leftOver lines ln N), false)
      rw [ih p2 l2 ln2 N (fun x hx => hcs x (List.mem_cons_of_mem c hx)) hp2]
      simp only [scanResult, List.flatten_cons, scanChars_append, hsc]

/-- What one inner scan computes, in terms of `linesUpTo`: the lines already
accumulated, followed by up to `lineCount - lineNumber` (at least one) more
newline-terminated lines of the remaining text. -/
theorem scanResult_spec (text : JsStr) :
    ∀ pend lines : JsStr, ∀ ln N : Nat, '\n' ∉ pend →
      scanResult text pend lines ln N =
        lines ++ linesUpTo (N - ln - 1 + 1) (pend ++ text) := by
  induction text with
  | nil =>
    intro pend lines ln N hp
    simp only [scanResult, scanChars, List.append_nil]
    rw [linesUpTo_of_no_newline _ pend hp, List.append_nil]
  | cons c rest ih =>
    intro pend lines ln N hp
    by_cases hc : c = '\n'
    · subst hc
      by_cases hN : ln + 1 ≥ N
      · have hsub : N - ln - 1 = 0 := by omega
        simp only [scanResult, scanChars, if_pos rfl, if_true, eq_self_iff_true,
          if_pos hN, hsub]
        simp only [linesUpTo, firstLineSplit_append pend rest hp]
        simp [linesUpTo]
      · have hsub : N - ln - 1 = (N - (ln + 1) - 1 + 1) := by omega
        have hstep : scanResult ('\n' :: rest) pend lines ln N =
            scanResult rest [] (lines ++ pend ++ ['\n']) (ln + 1) N := by
          simp only [scanResult, scanChars, if_pos rfl, if_true, eq_self_iff_true]
          rw [if_neg hN]
        rw [hstep, ih [] (lines ++ pend ++ ['\n']) (ln + 1) N (by simp)]
        simp only [List.nil_append, hsub]
        simp only [linesUpTo, firstLineSplit_append pend rest hp]
        simp
    · have hpc : '\n' ∉ pend ++ [c] := by
        intro hx
        rcases List.mem_append.mp hx with h1 | h1
        · exact hp h1
        · rw [List.mem_singleton] at h1
          exact hc h1.symm
      have hstep : scanResult (c :: rest) pend lines ln N =
          scanResult rest (pend ++ [c]) lines ln N := by
        simp only [scanResult, scanChars, if_neg hc]
      rw [hstep, ih (pend ++ [c]) lines ln N hpc, List.append_assoc]
      rfl

/-- The bounded reader over a chunked file equals `linesUpTo` on the whole
text, with the handle closed: it returns the first `lineCount` (at least
one, matching the post-increment check in the source) newline-terminated
lines. -/
theorem getFileLines_eq_linesUpTo (content : JsStr) (cs : List JsStr) (N : Nat)
    (hcs : ∀ c ∈ cs, c ≠ []) (hjoin : cs.flatten = content) :
    getFileLines .ok (cs.map .chunk) N =
      (.ret (linesUpTo (N - 1 + 1) content), false) := by
  unfold getFileLines
  rw [readLoop_chunks cs [] [] 0 N hcs (by simp),
    scanResult_spec cs.flatten [] [] 0 N (by simp)]
  simp [hjoin]

/-! ## The claims -/

/-- On POSIX hosts `normalizePath` is the identity. -/
theorem normalizePath_posix (s : JsStr) : normalizePath false s = s := rfl

/-- C2: `shouldInclude(P)` returns true when the accessor's `filterPaths`
list is empty; when it is non-empty it returns true iff `P`'s canonical
relative form (normalised, resolved relative to `targetDir`) starts with at
least one normalised entry of `filterPaths`. -/
theorem shouldInclude_empty_or_filter_match (fs : FileSystem) (win32 : Bool)
    (filePath : JsStr) :
    shouldInclude fs win32 filePath = true ↔
      (fs.filterPaths = [] ∨
        ∃ f ∈ fs.filterPaths,
          List.isPrefixOf (normalizePath win32 f)
            (canonicalRelative fs win32 filePath) = true) := by
  by_cases h : fs.filterPaths.length = 0
  · simp [shouldInclude, h, List.length_eq_zero.mp h]
  · have hne : fs.filterPaths ≠ [] := by
      intro hx; exact h (by simp [hx])
    simp only [shouldInclude, canonicalRelative, if_neg h, List.any_eq_true]
    constructor
    · rintro ⟨x, hx, hpre⟩
      rcases List.mem_map.mp hx with ⟨f, hf, rfl⟩
      exact Or.inr ⟨f, hf, hpre⟩
    · rintro (hempty | ⟨f, hf, hpre⟩)
      · exact absurd hempty hne
      · exact ⟨normalizePath win32 f, List.mem_map.mpr ⟨f, hf, rfl⟩, hpre⟩

/-- C1: no path whose resolved absolute form was reported as a symbolic link
during glob expansion survives into `findAllFiles`' result — the reported
link is removed even if it matched the glob (stated on the POSIX host over
an arbitrary glob-engine behaviour, i.e. any glob input and any filesystem
state; `targetDir` clean absolute, the candidate a clean relative path as
the glob library produces them). -/
theorem findAllFiles_excludes_reported_symlinks
    (fs : FileSystem) (engine : GlobEngine) (globs : List JsStr) (nocase : Bool)
    (p : JsStr) (hd : CleanAbs fs.targetDir) (hp : CleanRel p)
    (hsym : (pathResolve fs.targetDir p, true) ∈
      (engine (globs.map (normalizePath false)) ⟨nocase, true⟩).symlinks) :
    p ∉ findAllFiles fs false engine globs nocase := by
  intro hmem
  simp only [findAllFiles, globMethod] at hmem
  rw [List.mem_filter] at hmem
  obtain ⟨-, hkeep⟩ := hmem
  have hmemsym :
      normalizePath false (pathRelative fs.targetDir (pathResolve fs.targetDir p)) ∈
      ((engine (globs.map (normalizePath false)) ⟨nocase, true⟩).symlinks.filter
        (fun e => e.2)).map
          (fun e => normalizePath false (pathRelative fs.targetDir e.1)) := by
    apply List.mem_map.mpr
    refine ⟨(pathResolve fs.targetDir p, true), ?_, rfl⟩
    exact List.mem_filter.mpr ⟨hsym, rfl⟩
  rw [normalizePath_posix, pathRelative_pathResolve fs.targetDir p hd hp] at hmemsym
  rw [normalizePath_posix p] at hkeep
  rw [Bool.not_eq_eq_eq_not, Bool.not_true] at hkeep
  have hcontains := List.elem_iff.mpr hmemsym
  simp only [List.contains] at hkeep
  rw [hkeep] at hcontains
  exact Bool.false_ne_true hcontains

/-- C1, witness: a concrete engine reporting `/repo/link.txt` as a symlink;
`link.txt` is matched by the glob but excluded from `findAllFiles`. -/
theorem findAllFiles_excludes_reported_symlinks_witness :
    "link.txt".data ∉ findAllFiles ⟨"/repo".data, []⟩ false
      (fun _ _ => ⟨["link.txt".data, "a.txt".data], [("/repo/link.txt".data, true)]⟩)
      ["**/*".data] false :=
  findAllFiles_excludes_reported_symlinks ⟨"/repo".data, []⟩
    (fun _ _ => ⟨["link.txt".data, "a.txt".data], [("/repo/link.txt".data, true)]⟩)
    ["**/*".data] false "link.txt".data (by decide) (by decide) (by decide)

/-- C3 (failing path): when `open` succeeds and a subsequent `fd.read`
rejects, the error propagates out of `getFileLines` with the file handle
still open (leak flag `true`) — there is no `try`/`finally` around the read
loop, so the handle is *not* released on the read-error exit path.  The
other exit paths do release it (see the `false` leak flags in
`getFileLines_bounded_read` and `getFileLines_eq_linesUpTo`). -/
theorem getFileLines_read_error_leaks_handle :
    getFileLines .ok [.err ⟨false⟩] 5 = (.threw ⟨false⟩, true) ∧
    getFileLines .ok [.chunk ['a', '\n'], .err ⟨false⟩] 5 =
      (.threw ⟨false⟩, true) := by
  exact ⟨rfl, rfl⟩

/-- C4: with the trace of a file holding exactly `N` (or fewer)
newline-terminated lines, `getFileLines` returns all of them (all `N` of
them when the count is exactly `N`) and closes the handle; on a file that
does not exist (`open` rejects with `ENOENT`) it returns the absent marker
rather than failing. -/
theorem getFileLines_bounded_read (content : JsStr) (cs : List JsStr) (N : Nat)
    (h1 : 1 ≤ N) (hcs : ∀ c ∈ cs, c ≠ []) (hjoin : cs.flatten = content)
    (hN : countNL content ≤ N) :
    getFileLines .ok (cs.map .chunk) N = (.ret (terminatedPart content), false) ∧
    countNL (terminatedPart content) = countNL content ∧
    (∀ reads2, getFileLines (.err ⟨true⟩) reads2 N = (.absent, false)) := by
  refine ⟨?_, countNL_terminatedPart content, fun reads2 => rfl⟩
  rw [getFileLines_eq_linesUpTo content cs N hcs hjoin]
  have hplus : N - 1 + 1 = N := by omega
  rw [hplus, linesUpTo_eq_terminatedPart N content hN]

/-- C4, witness: a two-line file read in two chunks with `N = 2` yields both
lines and a closed handle. -/
theorem getFileLines_bounded_read_witness :
    getFileLines .ok [.chunk ['a', '\n'], .chunk ['b', '\n']] 2 =
      (.ret ['a', '\n', 'b', '\n'], false) := by
  have h := getFileLines_bounded_read ['a', '\n', 'b', '\n']
    [['a', '\n'], ['b', '\n']] 2 (by decide) (by decide) (by decide) (by decide)
  exact h.1.trans (by decide)

/-- C5 (failing path): the probe `isBinaryFile.isBinaryFile(file)` is an
`async` function whose promise is returned *without* `await`; a surrounding
`try`/`catch` only intercepts synchronous throws, so when the probe fails
with an `ENOENT` rejection (nonexistent path) the rejection propagates to
the caller instead of becoming `false` — the `catch` block (including its
`ENOENT → false` branch, shown in the other conjuncts) is unreachable for
promise rejections. -/
theorem isBinaryFile_enoent_rejection_propagates :
    isBinaryFile (.ok (.rejected ⟨true⟩)) = .rejected ⟨true⟩ ∧
    (∀ e : JsError, isBinaryFile (.ok (.rejected e)) = .rejected e) ∧
    (∀ b : Bool, isBinaryFile (.ok (.resolved b)) = .resolved b) ∧
    isBinaryFile (.error ⟨true⟩) = .resolved false ∧
    isBinaryFile (.error ⟨false⟩) = .rejected ⟨false⟩ := by
  exact ⟨rfl, fun e => rfl, fun b => rfl, rfl, rfl⟩

/-- C6: `getFileContents` either returns the whole file text or returns the
absent marker (`none`) — for *any* rejection of the read, since the `catch`
is unconditional — and, being a total function into `Option`, never raises. -/
theorem getFileContents_text_or_absent (fs : FileSystem)
    (readResult : JsStr → Except JsError JsStr) (relativeFile : JsStr) :
    (∃ text, getFileContents fs readResult relativeFile = some text ∧
       readResult (pathResolve fs.targetDir relativeFile) = .ok text) ∨
    (getFileContents fs readResult relativeFile = none ∧
       ∃ e, readResult (pathResolve fs.targetDir relativeFile) = .error e) := by
  unfold getFileContents
  cases h : readResult (pathResolve fs.targetDir relativeFile) with
  | ok text => exact Or.inl ⟨text, rfl, rfl⟩
  | error e => exact Or.inr ⟨rfl, e, rfl⟩

/-- C7: `fileExists` maps a successful access probe to `true` and any
probe failure to `false` — it is a total boolean function, so no underlying
error propagates — and `relativeFileExists` resolves against `targetDir` and
delegates to `fileExists`. -/
theorem fileExists_true_false_total :
    fileExists (.ok ()) = true ∧
    (∀ e : JsError, fileExists (.error e) = false) ∧
    (∀ (fs : FileSystem) (accessAt : JsStr → Except JsError Unit) (file : JsStr),
      relativeFileExists fs accessAt file =
        fileExists (accessAt (pathResolve fs.targetDir file))) := by
  exact ⟨rfl, fun e => rfl, fun fs accessAt file => rfl⟩

/-- C8: `findFirst` is the head of `findAll`'s sequence and `findFirstFile`
the head of `findAllFiles`' sequence; on an empty sequence both give the
absent result `none` (`List.head? [] = none`), and being total functions
into `Option` they never raise. -/
theorem findFirst_is_head_of_findAll (fs : FileSystem) (win32 : Bool)
    (engine : GlobEngine) (globs : List JsStr) (nocase : Bool) :
    findFirst fs win32 engine globs nocase =
      (findAll fs win32 engine globs nocase).head? ∧
    findFirstFile fs win32 engine globs nocase =
      (findAllFiles fs win32 engine globs nocase).head? := by
  constructor
  · rcases h : findAll fs win32 engine globs nocase with _ | ⟨a, rest⟩ <;>
      simp [findFirst, h]
  · rcases h : findAllFiles fs win32 engine globs nocase with _ | ⟨a, rest⟩ <;>
      simp [findFirstFile, h]

/-- C9: writing text `T` to path `P` and reading `P` back returns exactly
`T`: `setFileContents` updates the world at the resolved path and
`getFileContents` reads it there. -/
theorem setFileContents_getFileContents_roundtrip (fs : FileSystem) (w : World)
    (relativeFile contents : JsStr) :
    getFileContents fs (readFileAt (setFileContents fs w relativeFile contents))
      relativeFile = some contents := by
  unfold getFileContents readFileAt setFileContents
  simp

/-- C10: whenever `getFileLines` returns a string (for a file whose text is
the concatenation of the nonempty read chunks, any requested line count),
that string is empty or ends in a newline, and it is an initial segment of
the terminated part of the file — the content after the file's last newline
(a final unterminated line) is never included. -/
theorem getFileLines_only_terminated_lines (content : JsStr) (cs : List JsStr)
    (N : Nat) (s : JsStr) (b : Bool)
    (hcs : ∀ c ∈ cs, c ≠ []) (hjoin : cs.flatten = content)
    (hret : getFileLines .ok (cs.map .chunk) N = (.ret s, b)) :
    (s = [] ∨ s.getLast? = some '\n') ∧ ∃ t, s ++ t = terminatedPart content := by
  have heq := getFileLines_eq_linesUpTo content cs N hcs hjoin
  rw [hret] at heq
  have hs : s = linesUpTo (N - 1 + 1) content := by
    have hfst := congrArg Prod.fst heq
    simpa using hfst
  rw [hs]
  constructor
  · exact linesUpTo_getLast (N - 1 + 1) content
  · obtain ⟨t, ht⟩ := linesUpTo_mono (N - 1 + 1)
      (max (N - 1 + 1) (countNL content)) content (le_max_left _ _)
    refine ⟨t, ?_⟩
    rw [ht, linesUpTo_eq_terminatedPart _ content (le_max_right _ _)]

/-- C10, witness: reading one line of `"a\nx"` gives `"a\n"`, which ends in
a newline and is an initial segment of the terminated part `"a\n"`; the
unterminated `"x"` is dropped. -/
theorem getFileLines_only_terminated_lines_witness :
    ((['a', '\n'] : JsStr) = [] ∨ (['a', '\n'] : JsStr).getLast? = some '\n') ∧
    ∃ t, (['a', '\n'] : JsStr) ++ t = terminatedPart ['a', '\n', 'x'] :=
  getFileLines_only_terminated_lines ['a', '\n', 'x'] [['a', '\n', 'x']] 1
    ['a', '\n'] false (by decide) (by decide) (by decide)
